import Mathlib

set_option maxRecDepth 100000

/-!
Shallow embedding of the logger library (Go package `logger`): the format
specification model, the per-field renderers, the line-composition loop of
`processLogs`, the status-counter registry, and the construction-time
write-permission preflight. Pure functions of the source become Lean
functions; the filesystem and the Go `any` payload are abstracted as oracles
(`FsOutcome`, `GoAny`); `time.Duration` is an `Int` of nanoseconds; the
`float64` arithmetic of `getProcessingTime` is modelled exactly over
fractions of integers, including IEEE-754 binary64 rounding.
-/

/-- Exact fraction as a pair of integers; every constructor used in this
development keeps the denominator positive. Used to model `float64` values
exactly. -/
structure Q where
  num : Int
  den : Int
  deriving DecidableEq

/-- Fraction order: a < b (valid when both denominators are positive). -/
def qlt (a b : Q) : Prop := a.num * b.den < b.num * a.den

/-- Fraction order: a ≤ b (valid when both denominators are positive). -/
def qle (a b : Q) : Prop := a.num * b.den ≤ b.num * a.den

instance (a b : Q) : Decidable (qlt a b) := by unfold qlt; infer_instance

instance (a b : Q) : Decidable (qle a b) := by unfold qle; infer_instance

/-- Fraction multiplication (no normalisation needed for our purposes). -/
def qmul (a b : Q) : Q := ⟨a.num * b.num, a.den * b.den⟩

/-- The power 2^e as a fraction, for any integer e. -/
def pow2 (e : Int) : Q := if 0 ≤ e then ⟨2 ^ e.toNat, 1⟩ else ⟨1, 2 ^ (-e).toNat⟩

/-- Round to nearest integer, ties to even — the rounding of IEEE-754
binary64 arithmetic and of Go's fixed-precision float formatting. -/
def rne (x : Q) : Int :=
  let f := x.num.fdiv x.den
  let r2 := 2 * (x.num - f * x.den)
  if r2 < x.den then f
  else if x.den < r2 then f + 1
  else if f % 2 = 0 then f else f + 1

/-- Largest exponent e in [-60, 60] with 2^e ≤ x, found by fuel descent.
The binade range covers every value arising from Go durations. -/
def expSearch : Nat → Q → Int
  | 0, _ => -61
  | fuel+1, x =>
    let e : Int := (fuel : Int) - 60
    if qle (pow2 e) x then e else expSearch fuel x

/-- Binade exponent of a positive fraction. -/
def findExp (x : Q) : Int := expSearch 121 x

/-- The IEEE-754 binary64 value nearest to a positive fraction (normal
range): round the 53-bit significand half-to-even. -/
def posDouble (x : Q) : Q :=
  let e := findExp x
  qmul ⟨rne (qmul x (pow2 (52 - e))), 1⟩ (pow2 (e - 52))

/-- The binary64 value nearest to any fraction in the normal range. -/
def float64Near (x : Q) : Q :=
  if x.num = 0 then ⟨0, 1⟩
  else if x.num < 0 then
    let p := posDouble ⟨-x.num, x.den⟩
    ⟨-p.num, p.den⟩
  else posDouble x

/-- Decimal digits of a natural number, zero-padded to width 2 (Go's "01"
style verbs and the two fractional digits of `%.2f`). -/
def pad2 (n : Nat) : String := if n < 10 then "0" ++ Nat.repr n else Nat.repr n

/-- Decimal digits of a natural number, zero-padded to width 4 (Go's "2006"
year verb). -/
def pad4 (n : Nat) : String :=
  if n < 10 then "000" ++ Nat.repr n
  else if n < 100 then "00" ++ Nat.repr n
  else if n < 1000 then "0" ++ Nat.repr n
  else Nat.repr n

/-- Go `fmt.Sprintf("%.2f", v)` for a nonnegative binary64 value v: the
value rounded to hundredths (ties to even on the exact value of the
double), printed with exactly two fractional digits. -/
def fmt2 (v : Q) : String :=
  let n := (rne (qmul v ⟨100, 1⟩)).toNat
  Nat.repr (n / 100) ++ "." ++ pad2 (n % 100)

/-- Go `time.Duration.Microseconds()`: nanoseconds divided by 1000,
truncated toward zero. -/
def microseconds (d : Int) : Int := d.tdiv 1000

/-- The `float64` millisecond value computed by `getProcessingTime`:
`float64(processingTime.Microseconds()) / 1000.0`. -/
def processingTimeMs (d : Int) : Q := float64Near ⟨microseconds d, 1000⟩

/-- The binary64 value of the Go literal `0.01`. -/
def point01 : Q := float64Near ⟨1, 100⟩

/-- `getProcessingTime` (logger.go): convert the duration to fractional
milliseconds, clamp below at 0.01 ms, format with two decimals in square
brackets. -/
def getProcessingTime (d : Int) : String :=
  let ms := processingTimeMs d
  let ms2 := if qlt ms point01 then point01 else ms
  "[" ++ fmt2 ms2 ++ " ms]"

/-- The severity enumeration `LogStatus` is a Go `int`; callers can pass
values outside the five declared constants, so it is modelled as `Int`
(STATUS_INFO = 0, STATUS_WARN = 1, STATUS_TRACE = 2, STATUS_ERROR = 3,
STATUS_FATAL = 4). -/
def logStatustoString (s : Int) : String :=
  if s = 0 then "INFO"
  else if s = 1 then "WARN"
  else if s = 2 then "TRACE"
  else if s = 3 then "ERROR"
  else if s = 4 then "FATAL"
  else ""

/-- The `LogFormat` enumeration (format.go). -/
inductive LogFormat where
  | FORMAT_STATUS
  | FORMAT_PRE_TEXT
  | FORMAT_ID
  | FORMAT_SOURCE
  | FORMAT_INFO
  | FORMAT_DATA
  | FORMAT_ERROR
  | FORMAT_PROCESSING_TIME
  | FORMAT_TIMESTAMP
  | FORMAT_HTTP_REQUEST
  | FORMAT_PROCESSED_DATA
  deriving DecidableEq

/-- A point in time, as the fields the logger reads from Go `time.Time`:
calendar date, clock time, and UTC-offset minutes (0 rendered as Z). -/
structure Timestamp where
  year : Nat
  month : Nat
  day : Nat
  hour : Nat
  minute : Nat
  second : Nat
  offsetMin : Int
  deriving DecidableEq

/-- The Go zero `time.Time` (0001-01-01T00:00:00Z). -/
def zeroTimestamp : Timestamp := ⟨1, 1, 1, 0, 0, 0, 0⟩

/-- `formatTimestamp`: Go `time.RFC3339` layout. -/
def formatTimestamp (t : Timestamp) : String :=
  pad4 t.year ++ "-" ++ pad2 t.month ++ "-" ++ pad2 t.day ++ "T" ++
  pad2 t.hour ++ ":" ++ pad2 t.minute ++ ":" ++ pad2 t.second ++
  (if t.offsetMin = 0 then "Z"
   else if t.offsetMin < 0 then
     "-" ++ pad2 ((-t.offsetMin).toNat / 60) ++ ":" ++ pad2 ((-t.offsetMin).toNat % 60)
   else
     "+" ++ pad2 (t.offsetMin.toNat / 60) ++ ":" ++ pad2 (t.offsetMin.toNat % 60))

/-- Go `c.Timestamp.Format("2006_01_02")`. -/
def formatDate (t : Timestamp) : String :=
  pad4 t.year ++ "_" ++ pad2 t.month ++ "_" ++ pad2 t.day

/-- The three strings the engine reads from an `*http.Request`. -/
structure HttpRequest where
  remoteAddr : String
  method : String
  url : String
  deriving DecidableEq

/-- `getHttpRequest`: nil request renders empty, otherwise remote address,
method and URL separated by single spaces. -/
def getHttpRequest (r : Option HttpRequest) : String :=
  match r with
  | some req => req.remoteAddr ++ " " ++ req.method ++ " " ++ req.url
  | none => ""

/-- A closed JSON tree (objects keep their field order, which Go has already
fixed before rendering). -/
inductive Json where
  | null
  | bool (b : Bool)
  | num (n : Int)
  | str (s : String)
  | arr (elems : List Json)
  | obj (fields : List (String × Json))

/-- Escaping of one character inside a JSON string literal. -/
def jsonEscapeChar (c : Char) : String :=
  if c = '"' then "\\\""
  else if c = '\\' then "\\\\"
  else if c = '\n' then "\\n"
  else String.mk [c]

/-- A JSON string literal. -/
def jsonQuote (s : String) : String :=
  "\"" ++ String.join (s.data.map jsonEscapeChar) ++ "\""

/-- Indentation produced by `json.MarshalIndent(·, "", "  ")`: two spaces
per nesting level. -/
def jsonSpaces (lvl : Nat) : String := String.mk (List.replicate (2 * lvl) ' ')

mutual

/-- The text `json.MarshalIndent(v, "", "  ")` produces for a JSON tree at
a nesting level. -/
def jsonIndent : Json → Nat → String
  | .null, _ => "null"
  | .bool true, _ => "true"
  | .bool false, _ => "false"
  | .num n, _ => Int.repr n
  | .str s, _ => jsonQuote s
  | .arr [], _ => "[]"
  | .arr (x :: xs), lvl =>
      "[\n" ++ jsonItems (x :: xs) (lvl + 1) ++ "\n" ++ jsonSpaces lvl ++ "]"
  | .obj [], _ => "\x7b\x7d"
  | .obj (f :: fs), lvl =>
      "\x7b\n" ++ jsonFields (f :: fs) (lvl + 1) ++ "\n" ++ jsonSpaces lvl ++ "\x7d"

/-- Array elements, one per line, comma-separated. -/
def jsonItems : List Json → Nat → String
  | [], _ => ""
  | [x], lvl => jsonSpaces lvl ++ jsonIndent x lvl
  | x :: y :: xs, lvl =>
      jsonSpaces lvl ++ jsonIndent x lvl ++ ",\n" ++ jsonItems (y :: xs) lvl

/-- Object fields, one per line, comma-separated. -/
def jsonFields : List (String × Json) → Nat → String
  | [], _ => ""
  | [(k, v)], lvl => jsonSpaces lvl ++ jsonQuote k ++ ": " ++ jsonIndent v lvl
  | (k, v) :: g :: fs, lvl =>
      jsonSpaces lvl ++ jsonQuote k ++ ": " ++ jsonIndent v lvl ++ ",\n" ++
      jsonFields (g :: fs) lvl

end

/-- A Go `any` payload as the serializer sees it: either a value that
marshals to a JSON tree (`nil` marshals to `Json.null`), or a value on
which `json.MarshalIndent` fails with the given error text. -/
inductive GoAny where
  | jsonable (v : Json)
  | unjsonable (errText : String)

/-- `json.MarshalIndent(processedData, "", "  ")` with its error. -/
def marshalIndent (p : GoAny) : Except String String :=
  match p with
  | .jsonable v => .ok (jsonIndent v 0)
  | .unjsonable e => .error e

/-- `getProcessedData`: serialize the payload; on failure render the error
text itself; on success prefix the marker line. -/
def getProcessedData (p : GoAny) : String :=
  match marshalIndent p with
  | .error e => e
  | .ok s => ">Processed Data:\n" ++ s

/-- The `Container` event record (logger.go). The Go zero `time.Time` is
`none`; a Go nil `ProcessedData` is `GoAny.jsonable Json.null`. -/
structure Container where
  status : Int
  preText : String
  id : String
  source : String
  info : String
  data : String
  error : String
  processingTime : Int
  timestamp : Option Timestamp
  httpRequest : Option HttpRequest
  processedData : GoAny

/-- The timestamp a processed container renders (always set on the real
pipeline path, because `Entry` default-fills it). -/
def containerTime (c : Container) : Timestamp := c.timestamp.getD zeroTimestamp

/-- The token one format item renders for a container — the pure content of
the corresponding `case` of the `processLogs` switch. -/
def renderItem (c : Container) : LogFormat → String
  | .FORMAT_STATUS => logStatustoString c.status
  | .FORMAT_PRE_TEXT => c.preText
  | .FORMAT_ID => c.id
  | .FORMAT_SOURCE => c.source
  | .FORMAT_INFO => c.info
  | .FORMAT_DATA => c.data
  | .FORMAT_ERROR => c.error
  | .FORMAT_PROCESSING_TIME => getProcessingTime c.processingTime
  | .FORMAT_TIMESTAMP => formatTimestamp (containerTime c)
  | .FORMAT_HTTP_REQUEST => getHttpRequest c.httpRequest
  | .FORMAT_PROCESSED_DATA => getProcessedData c.processedData

/-- The Status Counter Registry: the Go `map[LogStatus]int` as an
association list (a key is present exactly when it has been written). -/
def CounterMap := List (Int × Nat)

instance : DecidableEq CounterMap := by unfold CounterMap; infer_instance

/-- Reading a Go map: missing keys read as zero. -/
def mapGet (m : CounterMap) (k : Int) : Nat :=
  match m with
  | [] => 0
  | (k', v) :: r => if k' = k then v else mapGet r k

/-- `incrementLogStatusCounter` (log_status.go): `l.StatusCounters[ls]++` —
bump the entry, inserting it at count 1 when absent. -/
def incrementLogStatusCounter (m : CounterMap) (ls : Int) : CounterMap :=
  match m with
  | [] => [(ls, 1)]
  | (k, v) :: r =>
      if k = ls then (k, v + 1) :: r else (k, v) :: incrementLogStatusCounter r ls

/-- The keys of the registry map. -/
def mapKeys (m : CounterMap) : List Int := m.map Prod.fst

/-- The ` [NAME: count]` entries of `GetLogStatusCounters`, over an already
sorted key list. -/
def renderCounters (m : CounterMap) : List Int → String
  | [] => ""
  | k :: r =>
      " [" ++ logStatustoString k ++ ": " ++ Nat.repr (mapGet m k) ++ "]" ++
      renderCounters m r

/-- `GetLogStatusCounters` (log_status.go): header, then one bracketed
entry per key of the counter map, keys sorted ascending (`sort.Ints`). -/
def GetLogStatusCounters (m : CounterMap) : String :=
  "Log Level Counters:" ++ renderCounters m (List.insertionSort (· ≤ ·) (mapKeys m))

/-- One iteration of the `processLogs` format loop: the written chunk
(token plus trailing space when the token is non-empty) and the counter
side effect of the `FORMAT_STATUS` case. -/
def renderStep (c : Container) (f : LogFormat) (m : CounterMap) : CounterMap × String :=
  match f with
  | .FORMAT_STATUS =>
      let str := logStatustoString c.status
      if str ≠ "" then (incrementLogStatusCounter m c.status, str ++ " ") else (m, "")
  | _ =>
      let str := renderItem c f
      if str ≠ "" then (m, str ++ " ") else (m, "")

/-- The whole format loop of `processLogs`: fold `renderStep` over the
format specification, concatenating the chunks left to right. -/
def processItems (c : Container) : List LogFormat → CounterMap → CounterMap × String
  | [], m => (m, "")
  | f :: rest, m =>
      let p := renderStep c f m
      let q := processItems c rest p.1
      (q.1, p.2 ++ q.2)

/-- `strings.TrimRight(s, " ")` on the character list. -/
def trimChars (l : List Char) : List Char :=
  (l.reverse.dropWhile (fun ch => ch = ' ')).reverse

/-- `strings.TrimRight(s, " ")`. -/
def trimRightSpaces (s : String) : String := String.mk (trimChars s.data)

/-- The composed line `processLogs` produces for one container: the format
loop's buffer with trailing spaces trimmed. -/
def composeLine (fmt : List LogFormat) (c : Container) : String :=
  trimRightSpaces (processItems c fmt []).2

/-- Sink configuration (`Options`, logger.go). -/
structure Options where
  outputToStdout : Bool
  outputToFile : Bool
  outputFolderPath : String
  deriving DecidableEq

/-- The engine state `processLogs` threads: format specification, counter
registry, sink configuration. -/
structure LoggerState where
  format : List LogFormat
  statusCounters : CounterMap
  options : Options
  deriving DecidableEq

/-- An observable effect of processing one record. -/
inductive Output where
  | file (path : String) (line : String)
  | stdout (line : String)
  deriving DecidableEq

/-- `writeLogToFile`: the log file path is the folder path concatenated —
with no separator — with the event date `YYYY_MM_DD` and `".log"`. -/
def logFileName (folderPath : String) (t : Timestamp) : String :=
  folderPath ++ formatDate t ++ ".log"

/-- The marker-file path of the write-permission preflight: the folder path
concatenated — with no separator — with `"testfile.tmp"`. -/
def testFilePath (folderPath : String) : String := folderPath ++ "testfile.tmp"

/-- The consumer body of `processLogs` for one received container: compose
the line (updating the counters), then emit to the enabled sinks. -/
def processContainer (l : LoggerState) (c : Container) : LoggerState × List Output :=
  let r := processItems c l.format l.statusCounters
  let line := trimRightSpaces r.2
  (⟨l.format, r.1, l.options⟩,
    (if l.options.outputToFile then
      [Output.file (logFileName l.options.outputFolderPath (containerTime c)) line]
     else []) ++
    (if l.options.outputToStdout then [Output.stdout line] else []))

/-- `Entry`: with an empty format specification return immediately (nothing
is sent to the channel); otherwise default-fill the timestamp and hand the
record over. The returned option is what reaches the Delivery Channel. -/
def Entry (l : LoggerState) (now : Timestamp) (c : Container) : Option Container :=
  if l.format = [] then none
  else some (if c.timestamp = none then { c with timestamp := some now } else c)

/-- One submission followed by the consumer's processing of whatever was
handed to the channel: the new engine state and the emitted outputs. -/
def submit (l : LoggerState) (now : Timestamp) (c : Container) : LoggerState × List Output :=
  match Entry l now c with
  | none => (l, [])
  | some c2 => processContainer l c2

/-- Outcome of the filesystem's create-marker-file call inside
`checkWritePermission` — the part of the repository outside the engine. -/
inductive FsOutcome where
  | ok
  | permissionDenied
  | otherError (msg : String)
  deriving DecidableEq

/-- `checkWritePermission`: attempt to create (and then delete) the marker
file `testFilePath folderPath`; permission denial yields (false, nil) — not
writable, no error — while any other failure is returned as the error;
success yields (true, nil). The filesystem is an oracle mapping the probed
path to its outcome; `Except.ok b` models (b, nil) and `Except.error e`
models (false, e). -/
def checkWritePermission (folderPath : String) (fs : String → FsOutcome) :
    Except String Bool :=
  match fs (testFilePath folderPath) with
  | .ok => .ok true
  | .permissionDenied => .ok false
  | .otherError msg => .error msg

/-- `NewLogger`: build the engine state (empty counter registry), run the
write-permission preflight, abort with the preflight's error if it has one,
otherwise start the consumer and submit the first entry synchronously. -/
def NewLogger (format : List LogFormat) (opt : Options) (firstEntry : Container)
    (now : Timestamp) (fs : String → FsOutcome) :
    Except String (LoggerState × List Output) :=
  match checkWritePermission opt.outputFolderPath fs with
  | .error e => .error e
  | .ok _ => .ok (submit ⟨format, [], opt⟩ now firstEntry)

/-- The token list a format specification renders for a container, in
specification order. -/
def tokensOf (c : Container) : List LogFormat → List String
  | [] => []
  | f :: rest => renderItem c f :: tokensOf c rest

/-- The chunk the loop writes for one token. -/
def chunk (t : String) : String := if t = "" then "" else t ++ " "

/-- Concatenation of the chunks of a token list (the loop's buffer). -/
def concatChunks : List String → String
  | [] => ""
  | t :: r => chunk t ++ concatChunks r

/-- Tokens joined with single spaces, in order. -/
def joinSp : List String → String
  | [] => ""
  | [t] => t
  | t :: r => t ++ " " ++ joinSp r

/-- No two consecutive spaces in a character list. -/
def noTwoSpaces : List Char → Bool
  | c1 :: c2 :: rest =>
      if c1 = ' ' ∧ c2 = ' ' then false else noTwoSpaces (c2 :: rest)
  | _ => true

/-- A well-formed rendered token: empty, or free of leading space, trailing
space, and double spaces. -/
def CleanToken (t : String) : Prop :=
  t = "" ∨ (t.data.head? ≠ some ' ' ∧ t.data.getLast? ≠ some ' ' ∧
            noTwoSpaces t.data = true)

instance (t : String) : Decidable (CleanToken t) := by
  unfold CleanToken; infer_instance

/-- The nonempty tokens of a token list, in order. -/
def nonemptyTokens (ts : List String) : List String :=
  ts.filter (fun t => !t.data.isEmpty)

/-- A plain record used to instantiate theorems on concrete inputs. -/
def sampleContainer : Container :=
  ⟨0, "", "", "", "", "", "", 0, none, none, .jsonable .null⟩

/-- A plain record whose info field is set. -/
def sampleContainer2 : Container :=
  ⟨0, "", "", "", "hello", "", "", 0, none, none, .jsonable .null⟩

/-- A record whose pre-text starts with a space character. -/
def spacePrefixedContainer : Container :=
  ⟨0, " x", "", "", "", "", "", 0, none, none, .jsonable .null⟩

/-- A concrete point in time. -/
def sampleTime : Timestamp := ⟨2024, 5, 17, 12, 0, 0, 0⟩

/-- Sink configuration with both sinks enabled. -/
def sampleOptions : Options := ⟨true, true, "/var/log/"⟩

/-- The bracketed summary entries for a list of severities, reading counts
from a count function. -/
def entriesFor (counts : Int → Nat) : List Int → String
  | [] => ""
  | k :: r =>
      " [" ++ logStatustoString k ++ ": " ++ Nat.repr (counts k) ++ "]" ++
      entriesFor counts r

/-- The summary the specification prescribes for a multiset of counted
severities: exactly the observed severities, in ascending ordinal order,
each with its exact count. -/
def expectedSummary (l : List Int) : String :=
  "Log Level Counters:" ++
    entriesFor (fun k => l.count k)
      (([0, 1, 2, 3, 4] : List Int).filter (fun i => decide (0 < l.count i)))

/- ------------------------------------------------------------------ -/
/- Theorems.                                                          -/
/- ------------------------------------------------------------------ -/

theorem strEmpty_append (s : String) : "" ++ s = s :=
  String.ext (by simp)

theorem strAppend_empty (s : String) : s ++ "" = s :=
  String.ext (by simp)

theorem strAppend_assoc (a b c : String) : a ++ b ++ c = a ++ (b ++ c) :=
  String.ext (by simp)

theorem strNe_empty_iff (s : String) : s ≠ "" ↔ s.data ≠ [] := by
  constructor
  · intro h hd
    exact h (String.ext (by simpa using hd))
  · intro h hd
    exact h (by simpa using congrArg String.data hd)

/-- C8. For every payload, `getProcessedData` renders a failing
serialization as the failure text itself (never aborting), renders a
successful serialization as the marker line `>Processed Data:` plus newline
followed by the two-space-indented JSON body, and renders the nil payload
as the marker followed by the literal `null`. -/
theorem c8_processed_data (e : String) (v : Json) :
    getProcessedData (.unjsonable e) = e ∧
    getProcessedData (.jsonable v) = ">Processed Data:\n" ++ jsonIndent v 0 ∧
    getProcessedData (.jsonable .null) = ">Processed Data:\nnull" :=
  ⟨rfl, rfl, rfl⟩

/-- C7. With an empty Format Specification, `Entry` sends nothing to the
channel and a submission is a total no-op: the engine state is unchanged
and no output (file or console) is produced. -/
theorem c7_disabled_noop (l : LoggerState) (now : Timestamp) (c : Container)
    (h : l.format = []) :
    Entry l now c = none ∧ submit l now c = (l, []) := by
  constructor
  · simp [Entry, h]
  · simp [submit, Entry, h]

theorem c7_witness :
    Entry ⟨[], [], sampleOptions⟩ sampleTime sampleContainer = none ∧
    submit ⟨[], [], sampleOptions⟩ sampleTime sampleContainer =
      (⟨[], [], sampleOptions⟩, []) :=
  c7_disabled_noop ⟨[], [], sampleOptions⟩ sampleTime sampleContainer rfl

/-- C6. Construction runs the write-permission preflight against the
marker path in the configured folder (in particular when file output is
requested): a permission-denied outcome is treated as not writable and
construction still succeeds, while any other filesystem error aborts
construction with that error and no logger results. -/
theorem c6_preflight (format : List LogFormat) (opt : Options)
    (firstEntry : Container) (now : Timestamp) (fs : String → FsOutcome) :
    (fs (testFilePath opt.outputFolderPath) = .permissionDenied →
      NewLogger format opt firstEntry now fs =
        .ok (submit ⟨format, [], opt⟩ now firstEntry)) ∧
    (∀ msg, fs (testFilePath opt.outputFolderPath) = .otherError msg →
      NewLogger format opt firstEntry now fs = .error msg) := by
  constructor
  · intro h
    simp [NewLogger, checkWritePermission, h]
  · intro msg h
    simp [NewLogger, checkWritePermission, h]

theorem c6_witness :
    NewLogger [] sampleOptions sampleContainer sampleTime
        (fun _ => .permissionDenied) =
      .ok (submit ⟨[], [], sampleOptions⟩ sampleTime sampleContainer) ∧
    NewLogger [] sampleOptions sampleContainer sampleTime
        (fun _ => .otherError "stat /nonexistent: no such file or directory") =
      .error "stat /nonexistent: no such file or directory" :=
  ⟨(c6_preflight [] sampleOptions sampleContainer sampleTime
      (fun _ => .permissionDenied)).1 rfl,
   (c6_preflight [] sampleOptions sampleContainer sampleTime
      (fun _ => .otherError "stat /nonexistent: no such file or directory")).2
      _ rfl⟩

theorem digitChar_isDigit : ∀ m, m < 10 → (Nat.digitChar m).isDigit = true := by
  decide

theorem toDigitsCore_digits (fuel : Nat) :
    ∀ (n : Nat) (acc : List Char), (∀ ch ∈ acc, ch.isDigit = true) →
      ∀ ch ∈ Nat.toDigitsCore 10 fuel n acc, ch.isDigit = true := by
  induction fuel with
  | zero => intro n acc hacc; simpa [Nat.toDigitsCore] using hacc
  | succ fuel ih =>
    intro n acc hacc ch hch
    rw [Nat.toDigitsCore] at hch
    by_cases hz : n / 10 = 0
    · rw [if_pos hz] at hch
      rcases List.mem_cons.1 hch with h | h
      · exact h ▸ digitChar_isDigit _ (Nat.mod_lt _ (by omega))
      · exact hacc _ h
    · rw [if_neg hz] at hch
      refine ih _ _ ?_ ch hch
      intro c hc
      rcases List.mem_cons.1 hc with h | h
      · exact h ▸ digitChar_isDigit _ (Nat.mod_lt _ (by omega))
      · exact hacc _ h

theorem repr_data_digits (n : Nat) : ∀ ch ∈ (Nat.repr n).data, ch.isDigit = true :=
  toDigitsCore_digits (n + 1) n [] (by simp)

theorem repr_head_ne_slash (n : Nat) : (Nat.repr n).data.head? ≠ some '/' := by
  cases h : (Nat.repr n).data with
  | nil => simp
  | cons c r =>
    have hc : c ∈ (Nat.repr n).data := h ▸ List.mem_cons_self c r
    have := repr_data_digits n c hc
    simp only [List.head?_cons, ne_eq, Option.some.injEq]
    intro heq
    rw [heq] at this
    simp at this

theorem headOr_ne_slash {a b : List Char} (ha : a.head? ≠ some '/')
    (hb : b.head? ≠ some '/') : (a ++ b).head? ≠ some '/' := by
  rw [List.head?_append]
  cases h : a.head? with
  | none => simpa using hb
  | some c => simpa [h] using ha

theorem pad4_head_ne_slash (n : Nat) : (pad4 n).data.head? ≠ some '/' := by
  unfold pad4
  split
  · simp
  · split
    · simp
    · split
      · simp
      · exact repr_head_ne_slash n

theorem pad2_head_ne_slash (n : Nat) : (pad2 n).data.head? ≠ some '/' := by
  unfold pad2
  split
  · simp
  · exact repr_head_ne_slash n

theorem str_append_head_ne_slash (a b : String) (ha : a.data.head? ≠ some '/')
    (hb : b.data.head? ≠ some '/') : (a ++ b).data.head? ≠ some '/' := by
  rw [String.data_append]
  exact headOr_ne_slash ha hb

theorem no_slash_extension (fp rest : String) (h : rest.data.head? ≠ some '/') :
    ¬ ((fp ++ "/").data <+: (fp ++ rest).data) := by
  intro hp
  rw [String.data_append, String.data_append] at hp
  have : ("/" : String).data <+: rest.data :=
    (List.prefix_append_right_inj fp.data).1 hp
  cases hd : rest.data with
  | nil => rw [hd] at this; simp at this
  | cons c r =>
    rw [hd] at this
    have hc := (List.cons_prefix_cons.1 this).1
    apply h
    rw [hd, ← hc]
    rfl

/-- C9. Both the daily log-file path and the preflight marker path are
plain concatenations of the folder path with the file name — the date
`YYYY_MM_DD` plus `.log`, and `testfile.tmp` — with no path separator
inserted: the produced path never continues the folder string with a
separator, so a folder path not ending in one acts as a file-name prefix. -/
theorem c9_path_concat (folderPath : String) (t : Timestamp) :
    logFileName folderPath t = folderPath ++ (formatDate t ++ ".log") ∧
    testFilePath folderPath = folderPath ++ "testfile.tmp" ∧
    ¬ ((folderPath ++ "/").data <+: (logFileName folderPath t).data) ∧
    ¬ ((folderPath ++ "/").data <+: (testFilePath folderPath).data) := by
  refine ⟨strAppend_assoc _ _ _, rfl, ?_, ?_⟩
  · rw [logFileName, strAppend_assoc]
    apply no_slash_extension
    refine str_append_head_ne_slash _ _ ?_ (by decide)
    rw [formatDate]
    exact str_append_head_ne_slash _ _
      (str_append_head_ne_slash _ _
        (str_append_head_ne_slash _ _
          (str_append_head_ne_slash _ _ (pad4_head_ne_slash t.year) (by decide))
          (pad2_head_ne_slash t.month))
        (by decide))
      (pad2_head_ne_slash t.day)
  · apply no_slash_extension
    simp

theorem renderStep_fst_of_ne (c : Container) (f : LogFormat) (m : CounterMap)
    (h : f ≠ LogFormat.FORMAT_STATUS) : (renderStep c f m).1 = m := by
  cases f <;> simp [renderStep] <;> first | (exact absurd rfl h) | (split <;> rfl)

theorem processItems_fst_no_status (c : Container) (fmt : List LogFormat)
    (m : CounterMap) (h : LogFormat.FORMAT_STATUS ∉ fmt) :
    (processItems c fmt m).1 = m := by
  induction fmt generalizing m with
  | nil => rfl
  | cons f rest ih =>
    have hf : f ≠ LogFormat.FORMAT_STATUS := fun he => h (he ▸ List.mem_cons_self f rest)
    have hr : LogFormat.FORMAT_STATUS ∉ rest := fun hm => h (List.mem_cons_of_mem f hm)
    show (processItems c rest (renderStep c f m).1).1 = m
    rw [renderStep_fst_of_ne c f m hf, ih _ hr]

/-- C10. With an empty Status Counter Registry — in particular on any
freshly constructed logger whose Format Specification lacks the SEVERITY
field — the counter-summary query returns exactly `Log Level Counters:`
with no entries and no trailing space. -/
theorem c10_empty_summary :
    GetLogStatusCounters [] = "Log Level Counters:" ∧
    ∀ (format : List LogFormat) (opt : Options) (c : Container) (t : Timestamp)
      (fs : String → FsOutcome) (r : LoggerState × List Output),
      NewLogger format opt c t fs = .ok r → LogFormat.FORMAT_STATUS ∉ format →
      GetLogStatusCounters r.1.statusCounters = "Log Level Counters:" := by
  refine ⟨rfl, ?_⟩
  intro format opt c t fs r hok hmem
  rw [NewLogger] at hok
  rcases hcw : checkWritePermission opt.outputFolderPath fs with e | b <;>
    rw [hcw] at hok
  · cases hok
  have hr : r = submit ⟨format, [], opt⟩ t c := by
    cases hok
    rfl
  subst hr
  rw [submit]
  rcases he : Entry ⟨format, [], opt⟩ t c with _ | c2
  · exact rfl
  · show GetLogStatusCounters
      (processContainer ⟨format, [], opt⟩ c2).1.statusCounters = _
    rw [processContainer]
    show GetLogStatusCounters (processItems c2 format []).1 = _
    rw [processItems_fst_no_status c2 format [] hmem]
    rfl

theorem c10_witness :
    GetLogStatusCounters
        (submit ⟨[LogFormat.FORMAT_INFO], [], sampleOptions⟩ sampleTime
          sampleContainer2).1.statusCounters = "Log Level Counters:" :=
  c10_empty_summary.2 [LogFormat.FORMAT_INFO] sampleOptions sampleContainer2
    sampleTime (fun _ => .ok) _ rfl (by decide)

theorem mapGet_increment (m : CounterMap) (ls k : Int) :
    mapGet (incrementLogStatusCounter m ls) k =
      mapGet m k + (if k = ls then 1 else 0) := by
  induction m with
  | nil =>
    simp only [incrementLogStatusCounter, mapGet]
    by_cases h : ls = k
    · rw [if_pos h, if_pos (by omega : k = ls)]
    · rw [if_neg h, if_neg (by omega : ¬k = ls)]
  | cons p r ih =>
    obtain ⟨pk, pv⟩ := p
    simp only [incrementLogStatusCounter]
    by_cases h : pk = ls
    · rw [if_pos h]
      simp only [mapGet]
      by_cases hk : pk = k
      · rw [if_pos hk, if_pos hk, if_pos (by omega : k = ls)]
      · rw [if_neg hk, if_neg hk, if_neg (by omega : ¬k = ls)]
        omega
    · rw [if_neg h]
      simp only [mapGet]
      by_cases hk : pk = k
      · rw [if_pos hk, if_pos hk, if_neg (by omega : ¬k = ls)]
        omega
      · rw [if_neg hk, if_neg hk, ih]

theorem renderStep_fst_status (c : Container) (m : CounterMap) :
    (renderStep c LogFormat.FORMAT_STATUS m).1 =
      if logStatustoString c.status ≠ "" then incrementLogStatusCounter m c.status
      else m := by
  rw [renderStep]
  split <;> simp_all

theorem processItems_counters (c : Container) (fmt : List LogFormat)
    (m : CounterMap) (s : Int) :
    mapGet (processItems c fmt m).1 s =
      mapGet m s +
        (if s = c.status ∧ logStatustoString c.status ≠ "" then
          fmt.count LogFormat.FORMAT_STATUS
         else 0) := by
  induction fmt generalizing m with
  | nil => simp [processItems]
  | cons f rest ih =>
    show mapGet (processItems c rest (renderStep c f m).1).1 s = _
    rw [ih, List.count_cons]
    by_cases hf : f = LogFormat.FORMAT_STATUS
    · subst hf
      rw [renderStep_fst_status]
      simp only [beq_self_eq_true, if_true]
      by_cases hcond : s = c.status ∧ logStatustoString c.status ≠ ""
      · rw [if_pos hcond.2, mapGet_increment, if_pos hcond.1, if_pos hcond,
          if_pos hcond]
        omega
      · by_cases hk : logStatustoString c.status ≠ ""
        · have hs : ¬s = c.status := fun h2 => hcond ⟨h2, hk⟩
          rw [if_pos hk, mapGet_increment, if_neg hs, if_neg hcond, if_neg hcond]
        · rw [if_neg hk, if_neg hcond, if_neg hcond]
    · have hcount : (f == LogFormat.FORMAT_STATUS) = false :=
        beq_eq_false_iff_ne.mpr hf
      rw [renderStep_fst_of_ne c f m hf, hcount]
      simp

/-- C4 (amended). Processing one event bumps the counter of the event's
severity once per occurrence of the SEVERITY field in the Format
Specification — hence exactly once precisely when the field occurs exactly
once — and only when the severity maps to a known display string; an
unknown severity renders the empty token (the SEVERITY renderer is the
display-string lookup) and increments nothing, and no other severity's
counter ever changes. -/
theorem c4_severity_counter (c : Container) (fmt : List LogFormat)
    (m : CounterMap) (s : Int) :
    mapGet (processItems c fmt m).1 s =
      mapGet m s +
        (if s = c.status ∧ logStatustoString c.status ≠ "" then
          fmt.count LogFormat.FORMAT_STATUS
         else 0) ∧
    renderItem c LogFormat.FORMAT_STATUS = logStatustoString c.status :=
  ⟨processItems_counters c fmt m s, rfl⟩

/-- C4 counterexample: a Format Specification listing the SEVERITY field
twice, on an event with the known severity INFO, bumps the INFO counter to
2 in a single processed event — not "exactly once" as claimed. -/
theorem c4_counterexample :
    LogFormat.FORMAT_STATUS ∈
        [LogFormat.FORMAT_STATUS, LogFormat.FORMAT_STATUS] ∧
    logStatustoString sampleContainer.status ≠ "" ∧
    mapGet (processItems sampleContainer
        [LogFormat.FORMAT_STATUS, LogFormat.FORMAT_STATUS] []).1
        sampleContainer.status = 2 := by
  refine ⟨by decide, by decide, ?_⟩
  decide

theorem mapGet_foldl (l : List Int) (m : CounterMap) (k : Int) :
    mapGet (l.foldl incrementLogStatusCounter m) k = mapGet m k + l.count k := by
  induction l generalizing m with
  | nil => simp
  | cons x l ih =>
    rw [List.foldl_cons, ih, mapGet_increment, List.count_cons]
    by_cases h : x = k
    · rw [if_pos (by omega : k = x), if_pos (beq_iff_eq.mpr h)]
      omega
    · rw [if_neg (by omega : ¬k = x), if_neg (by simp [h])]
      omega

theorem mapKeys_cons (p : Int × Nat) (r : CounterMap) :
    mapKeys (p :: r) = p.1 :: mapKeys r := rfl

theorem mapKeys_increment (m : CounterMap) (x : Int) :
    mapKeys (incrementLogStatusCounter m x) =
      if x ∈ mapKeys m then mapKeys m else mapKeys m ++ [x] := by
  induction m with
  | nil =>
    rw [if_neg (by simp [mapKeys])]
    rfl
  | cons p r ih =>
    obtain ⟨pk, pv⟩ := p
    show mapKeys
      (if pk = x then (pk, pv + 1) :: r
       else (pk, pv) :: incrementLogStatusCounter r x) = _
    by_cases h : pk = x
    · rw [if_pos h,
        if_pos (show x ∈ mapKeys ((pk, pv) :: r) from
          List.mem_cons.2 (Or.inl h.symm))]
      rfl
    · rw [if_neg h]
      have hmemiff : x ∈ mapKeys ((pk, pv) :: r) ↔ x ∈ mapKeys r := by
        rw [mapKeys_cons]
        simp only [List.mem_cons]
        exact or_iff_right (fun he => h he.symm)
      by_cases hm : x ∈ mapKeys r
      · rw [if_pos (hmemiff.mpr hm), mapKeys_cons, mapKeys_cons, ih, if_pos hm]
      · rw [if_neg (fun hx => hm (hmemiff.mp hx)), mapKeys_cons, mapKeys_cons,
          ih, if_neg hm]
        rfl

theorem mem_mapKeys_foldl (l : List Int) (m : CounterMap) (k : Int) :
    k ∈ mapKeys (l.foldl incrementLogStatusCounter m) ↔ k ∈ mapKeys m ∨ k ∈ l := by
  induction l generalizing m with
  | nil => simp
  | cons x l ih =>
    rw [List.foldl_cons, ih, mapKeys_increment]
    by_cases h : x ∈ mapKeys m
    · rw [if_pos h]
      constructor
      · rintro (hm | hl)
        · exact Or.inl hm
        · exact Or.inr (List.mem_cons_of_mem x hl)
      · rintro (hm | hl)
        · exact Or.inl hm
        · rcases List.mem_cons.1 hl with he | hl
          · exact Or.inl (by rw [he]; exact h)
          · exact Or.inr hl
    · rw [if_neg h]
      simp only [List.mem_append, List.mem_singleton, List.mem_cons]
      tauto

theorem nodup_mapKeys_foldl (l : List Int) (m : CounterMap)
    (h : (mapKeys m).Nodup) :
    (mapKeys (l.foldl incrementLogStatusCounter m)).Nodup := by
  induction l generalizing m with
  | nil => exact h
  | cons x l ih =>
    rw [List.foldl_cons]
    apply ih
    rw [mapKeys_increment]
    by_cases hx : x ∈ mapKeys m
    · rw [if_pos hx]
      exact h
    · rw [if_neg hx]
      rw [List.nodup_append]
      refine ⟨h, List.nodup_singleton x, ?_⟩
      intro a ha hb
      rw [List.mem_singleton] at hb
      exact hx (by rw [← hb]; exact ha)

theorem known_mem_five (s : Int) (h : logStatustoString s ≠ "") :
    s ∈ ([0, 1, 2, 3, 4] : List Int) := by
  by_contra hm
  apply h
  rw [logStatustoString,
    if_neg (fun he : s = 0 => hm (by rw [he]; decide)),
    if_neg (fun he : s = 1 => hm (by rw [he]; decide)),
    if_neg (fun he : s = 2 => hm (by rw [he]; decide)),
    if_neg (fun he : s = 3 => hm (by rw [he]; decide)),
    if_neg (fun he : s = 4 => hm (by rw [he]; decide))]

theorem sorted_keys_eq (l : List Int)
    (hknown : ∀ s ∈ l, logStatustoString s ≠ "") :
    List.insertionSort (· ≤ ·) (mapKeys (l.foldl incrementLogStatusCounter [])) =
      ([0, 1, 2, 3, 4] : List Int).filter (fun i => decide (0 < l.count i)) := by
  have nd1 : (List.insertionSort (· ≤ ·)
      (mapKeys (l.foldl incrementLogStatusCounter []))).Nodup :=
    ((List.perm_insertionSort (· ≤ ·) _).nodup_iff).mpr
      (nodup_mapKeys_foldl l [] (by simp [mapKeys]))
  have nd2 : (([0, 1, 2, 3, 4] : List Int).filter
      (fun i => decide (0 < l.count i))).Nodup :=
    List.Nodup.filter _ (by decide)
  have hmem : ∀ a, a ∈ List.insertionSort (· ≤ ·)
      (mapKeys (l.foldl incrementLogStatusCounter [])) ↔
      a ∈ ([0, 1, 2, 3, 4] : List Int).filter (fun i => decide (0 < l.count i)) := by
    intro a
    rw [(List.perm_insertionSort (· ≤ ·) _).mem_iff, mem_mapKeys_foldl]
    simp only [mapKeys, List.map_nil, List.not_mem_nil, false_or]
    rw [List.mem_filter]
    constructor
    · intro ha
      exact ⟨known_mem_five a (hknown a ha), by simp [List.count_pos_iff.mpr ha]⟩
    · rintro ⟨_, hc⟩
      rw [decide_eq_true_iff] at hc
      exact List.count_pos_iff.mp hc
  exact List.eq_of_perm_of_sorted
    ((List.perm_ext_iff_of_nodup nd1 nd2).mpr hmem)
    (List.sorted_insertionSort (· ≤ ·) _)
    (List.Pairwise.filter _ (by decide))

theorem renderCounters_eq_entriesFor (m : CounterMap) (cnt : Int → Nat)
    (ks : List Int) (h : ∀ k ∈ ks, mapGet m k = cnt k) :
    renderCounters m ks = entriesFor cnt ks := by
  induction ks with
  | nil => rfl
  | cons k r ih =>
    rw [renderCounters, entriesFor, h k (List.mem_cons_self k r),
      ih (fun a ha => h a (List.mem_cons_of_mem k ha))]

/-- C5. For every registry state reached from the empty registry by the
increments the consumer performs (each for a severity with a known display
string), the counter-summary query returns the single line starting with
`Log Level Counters:` listing exactly the severities incremented at least
once, each as ` [NAME: count]` with its exact count, in ascending ordinal
order, space-separated, with no trailing punctuation. -/
theorem c5_counter_summary (l : List Int)
    (hknown : ∀ s ∈ l, logStatustoString s ≠ "") :
    GetLogStatusCounters (l.foldl incrementLogStatusCounter []) =
      expectedSummary l := by
  rw [GetLogStatusCounters, expectedSummary, sorted_keys_eq l hknown]
  rw [renderCounters_eq_entriesFor _ (fun k => l.count k) _
    (fun k _ => by rw [mapGet_foldl]; simp [mapGet])]

theorem c5_witness :
    GetLogStatusCounters
        (([0, 0, 0, 0, 0, 1, 2, 2, 3, 3, 3, 3, 4, 4, 4] : List Int).foldl
          incrementLogStatusCounter []) =
      "Log Level Counters: [INFO: 5] [WARN: 1] [TRACE: 2] [ERROR: 4] [FATAL: 3]" :=
  (c5_counter_summary _ (by decide)).trans (by decide)

theorem chunk_eq_ite (t : String) :
    (if t ≠ "" then t ++ " " else "") = chunk t := by
  rw [chunk]
  by_cases h : t = ""
  · rw [if_neg (by simp [h]), if_pos h]
  · rw [if_pos h, if_neg h]

theorem renderStep_snd (c : Container) (f : LogFormat) (m : CounterMap) :
    (renderStep c f m).2 = chunk (renderItem c f) := by
  have key : ∀ (mm : CounterMap) (s : String),
      (if s ≠ "" then (mm, s ++ " ") else (m, "")).2 = chunk s := by
    intro mm s
    rw [← chunk_eq_ite]
    by_cases h : s ≠ ""
    · rw [if_pos h, if_pos h]
    · rw [if_neg h, if_neg h]
  cases f
  case FORMAT_STATUS =>
    exact key (incrementLogStatusCounter m c.status) (logStatustoString c.status)
  all_goals exact key m _

theorem processItems_snd (c : Container) (fmt : List LogFormat) (m : CounterMap) :
    (processItems c fmt m).2 = concatChunks (tokensOf c fmt) := by
  induction fmt generalizing m with
  | nil => rfl
  | cons f rest ih =>
    show (renderStep c f m).2 ++ (processItems c rest (renderStep c f m).1).2 =
      chunk (renderItem c f) ++ concatChunks (tokensOf c rest)
    rw [renderStep_snd, ih]

theorem tokensOf_eq_map (c : Container) (fmt : List LogFormat) :
    tokensOf c fmt = fmt.map (renderItem c) := by
  induction fmt with
  | nil => rfl
  | cons f rest ih => rw [tokensOf, List.map_cons, ih]

theorem dropWhile_rev_of_getLast (l : List Char) (h : l.getLast? ≠ some ' ') :
    l.reverse.dropWhile (fun ch => decide (ch = ' ')) = l.reverse := by
  cases hrev : l.reverse with
  | nil => rfl
  | cons c cs =>
    have hc : c ≠ ' ' := by
      intro he
      apply h
      rw [← List.head?_reverse, hrev, he]
      rfl
    rw [List.dropWhile_cons, if_neg (by simp [hc])]

theorem trimChars_of_getLast (l : List Char) (h : l.getLast? ≠ some ' ') :
    trimChars l = l := by
  unfold trimChars
  rw [dropWhile_rev_of_getLast l h, List.reverse_reverse]

theorem trimChars_token (t : List Char) (h : t.getLast? ≠ some ' ') :
    trimChars (t ++ [' ']) = t := by
  unfold trimChars
  rw [List.reverse_append, List.reverse_singleton, List.singleton_append,
    List.dropWhile_cons, if_pos (by simp), dropWhile_rev_of_getLast t h,
    List.reverse_reverse]

theorem trimChars_append_of_ne_nil (a b : List Char) (h : trimChars b ≠ []) :
    trimChars (a ++ b) = a ++ trimChars b := by
  unfold trimChars at h ⊢
  rw [List.reverse_append, List.dropWhile_append]
  have hne : ¬(b.reverse.dropWhile (fun ch => decide (ch = ' '))).isEmpty = true := by
    intro hbe
    rw [List.isEmpty_iff] at hbe
    exact h (by rw [hbe]; rfl)
  rw [if_neg hne, List.reverse_append, List.reverse_reverse]

theorem concatChunks_of_all_empty (ts : List String)
    (h : ∀ t ∈ ts, t = "") : concatChunks ts = "" := by
  induction ts with
  | nil => rfl
  | cons t r ih =>
    rw [concatChunks, h t (List.mem_cons_self t r)]
    rw [show chunk "" = "" from rfl, strEmpty_append]
    exact ih (fun a ha => h a (List.mem_cons_of_mem t ha))

theorem joinSp_cons_cons (t u : String) (us : List String) :
    joinSp (t :: u :: us) = t ++ " " ++ joinSp (u :: us) := rfl

theorem joinSp_data_ne_nil (t : String) (r : List String) (h : t ≠ "") :
    (joinSp (t :: r)).data ≠ [] := by
  cases r with
  | nil => exact (strNe_empty_iff t).mp h
  | cons u us =>
    rw [joinSp_cons_cons, String.data_append, String.data_append]
    simp [(strNe_empty_iff t).mp h]

theorem trim_concat_eq_joinSp (ts : List String)
    (h : ∀ t ∈ ts, CleanToken t) :
    trimRightSpaces (concatChunks ts) = joinSp (nonemptyTokens ts) := by
  induction ts with
  | nil => rfl
  | cons t r ih =>
    have hr := fun a ha => h a (List.mem_cons_of_mem t ha)
    by_cases ht : t = ""
    · subst ht
      show trimRightSpaces (chunk "" ++ concatChunks r) = joinSp (nonemptyTokens ("" :: r))
      rw [show chunk "" = "" from rfl, strEmpty_append,
        show nonemptyTokens ("" :: r) = nonemptyTokens r from by
          simp [nonemptyTokens, List.filter_cons]]
      exact ih hr
    · have hclean : t.data.head? ≠ some ' ' ∧ t.data.getLast? ≠ some ' ' ∧
          noTwoSpaces t.data = true := by
        rcases h t (List.mem_cons_self t r) with he | hc
        · exact absurd he ht
        · exact hc
      have htd : t.data ≠ [] := (strNe_empty_iff t).mp ht
      have hfil : nonemptyTokens (t :: r) = t :: nonemptyTokens r := by
        rw [nonemptyTokens, List.filter_cons,
          if_pos (by simp [List.isEmpty_iff, htd])]
        rfl
      rw [concatChunks, chunk, if_neg ht, hfil]
      by_cases hrf : nonemptyTokens r = []
      · have hall : ∀ a ∈ r, a = "" := by
          intro a ha
          by_contra hne2
          have : a ∈ nonemptyTokens r := by
            rw [nonemptyTokens, List.mem_filter]
            exact ⟨ha, by simpa [List.isEmpty_iff] using (strNe_empty_iff a).mp hne2⟩
          rw [hrf] at this
          exact List.not_mem_nil a this
        rw [concatChunks_of_all_empty r hall, strAppend_empty, hrf]
        show trimRightSpaces (t ++ " ") = joinSp [t]
        apply String.ext
        show trimChars (t ++ " ").data = t.data
        rw [String.data_append, show (" " : String).data = [' '] from rfl]
        exact trimChars_token t.data hclean.2.1
      · have htrim := ih hr
        have hjoin_ne : (joinSp (nonemptyTokens r)).data ≠ [] := by
          cases hcase : nonemptyTokens r with
          | nil => exact absurd hcase hrf
          | cons u us =>
            have hu : u ∈ nonemptyTokens r := by
              rw [hcase]; exact List.mem_cons_self u us
            rw [nonemptyTokens, List.mem_filter] at hu
            have : u ≠ "" := by
              rw [strNe_empty_iff]
              simpa [List.isEmpty_iff] using hu.2
            exact joinSp_data_ne_nil u us this
        have hb_ne : trimChars (concatChunks r).data ≠ [] := by
          intro h0
          apply hjoin_ne
          rw [← htrim]
          exact h0
        have hsplit : trimRightSpaces ((t ++ " ") ++ concatChunks r) =
            (t ++ " ") ++ trimRightSpaces (concatChunks r) := by
          apply String.ext
          rw [String.data_append]
          show trimChars ((t ++ " ").data ++ (concatChunks r).data) =
            (t ++ " ").data ++ trimChars (concatChunks r).data
          exact trimChars_append_of_ne_nil _ _ hb_ne
        rw [hsplit, htrim]
        cases hcase : nonemptyTokens r with
        | nil => exact absurd hcase hrf
        | cons u us => rw [joinSp_cons_cons]

theorem noTwoSpaces_cons_cons (c1 c2 : Char) (r : List Char) :
    noTwoSpaces (c1 :: c2 :: r) =
      if c1 = ' ' ∧ c2 = ' ' then false else noTwoSpaces (c2 :: r) := rfl

theorem noTwoSpaces_append (a b : List Char) (ha : noTwoSpaces a = true)
    (hb : noTwoSpaces b = true)
    (hab : a.getLast? = some ' ' → b.head? ≠ some ' ') :
    noTwoSpaces (a ++ b) = true := by
  induction a with
  | nil => simpa using hb
  | cons x xs ih =>
    cases xs with
    | nil =>
      cases b with
      | nil => rfl
      | cons y ys =>
        show noTwoSpaces (x :: y :: ys) = true
        rw [noTwoSpaces_cons_cons, if_neg ?_]
        · exact hb
        · rintro ⟨hx, hy⟩
          exact hab (by rw [hx]; rfl) (by rw [hy]; rfl)
    | cons y xs2 =>
      have hpair : ¬(x = ' ' ∧ y = ' ') := by
        intro hp
        rw [noTwoSpaces_cons_cons, if_pos hp] at ha
        exact absurd ha (by simp)
      have ha2 : noTwoSpaces (y :: xs2) = true := by
        rwa [noTwoSpaces_cons_cons, if_neg hpair] at ha
      have hab2 : (y :: xs2).getLast? = some ' ' → b.head? ≠ some ' ' := by
        intro hl
        exact hab (by rw [List.getLast?_cons_cons]; exact hl)
      show noTwoSpaces (x :: ((y :: xs2) ++ b)) = true
      rw [show (y :: xs2) ++ b = y :: (xs2 ++ b) from rfl, noTwoSpaces_cons_cons,
        if_neg hpair]
      exact ih ha2 hab2

theorem joinSp_clean (ts : List String)
    (h : ∀ t ∈ ts, t ≠ "" ∧ CleanToken t) :
    (joinSp ts).data.head? ≠ some ' ' ∧ (joinSp ts).data.getLast? ≠ some ' ' ∧
    noTwoSpaces (joinSp ts).data = true := by
  induction ts with
  | nil => exact ⟨by decide, by decide, rfl⟩
  | cons t r ih =>
    obtain ⟨htne, htc⟩ := h t (List.mem_cons_self t r)
    have hclean : t.data.head? ≠ some ' ' ∧ t.data.getLast? ≠ some ' ' ∧
        noTwoSpaces t.data = true := by
      rcases htc with he | hc
      · exact absurd he htne
      · exact hc
    cases r with
    | nil => exact ⟨hclean.1, hclean.2.1, hclean.2.2⟩
    | cons u us =>
      have hr := ih (fun a ha => h a (List.mem_cons_of_mem t ha))
      have hune := (h u (List.mem_cons_of_mem t (List.mem_cons_self u us))).1
      have hjne : (joinSp (u :: us)).data ≠ [] := joinSp_data_ne_nil u us hune
      have hdata : (joinSp (t :: u :: us)).data =
          t.data ++ (' ' :: (joinSp (u :: us)).data) := by
        rw [joinSp_cons_cons, String.data_append, String.data_append,
          show (" " : String).data = [' '] from rfl, List.append_assoc]
        rfl
      have htd : t.data ≠ [] := (strNe_empty_iff t).mp htne
      obtain ⟨c, cs, htdc⟩ : ∃ c cs, t.data = c :: cs := by
        cases hx : t.data with
        | nil => exact absurd hx htd
        | cons c cs => exact ⟨c, cs, rfl⟩
      refine ⟨?_, ?_, ?_⟩
      · rw [hdata, htdc]
        show some c ≠ some ' '
        rw [← show (c :: cs).head? = some c from rfl, ← htdc]
        exact hclean.1
      · rw [hdata, List.getLast?_append]
        have hcc : (' ' :: (joinSp (u :: us)).data).getLast? =
            (joinSp (u :: us)).data.getLast? := by
          cases hx : (joinSp (u :: us)).data with
          | nil => exact absurd hx hjne
          | cons w ws => rw [List.getLast?_cons_cons]
        rw [hcc]
        cases hg : (joinSp (u :: us)).data.getLast? with
        | none => exact absurd (List.getLast?_eq_none_iff.mp hg) hjne
        | some w =>
          have hw : w ≠ ' ' := by
            intro he
            exact hr.2.1 (by rw [hg, he])
          simp [hw]
      · rw [hdata]
        apply noTwoSpaces_append _ _ hclean.2.2 ?_ ?_
        · cases hx : (joinSp (u :: us)).data with
          | nil => exact absurd hx hjne
          | cons w ws =>
            have hw : ¬(' ' = ' ' ∧ w = ' ') := by
              rintro ⟨_, hw⟩
              exact hr.1 (by rw [hx, hw]; rfl)
            rw [noTwoSpaces_cons_cons, if_neg hw, ← hx]
            exact hr.2.2
        · exact fun hl => absurd hl hclean.2.1

theorem composeLine_eq_joinSp (fmt : List LogFormat) (c : Container)
    (h : ∀ f ∈ fmt, CleanToken (renderItem c f)) :
    composeLine fmt c = joinSp (nonemptyTokens (tokensOf c fmt)) := by
  rw [composeLine, processItems_snd]
  apply trim_concat_eq_joinSp
  intro t ht
  rw [tokensOf_eq_map] at ht
  obtain ⟨f, hf, rfl⟩ := List.mem_map.1 ht
  exact h f hf

/-- C1 (amended). For every Format Specification and every record whose
rendered tokens are separator-clean (no leading space, no trailing space,
no two adjacent spaces — in particular every record built from raw string
fields free of such spacing), the composed line is exactly the non-empty
tokens in specification order joined by single spaces, contains no two
consecutive spaces, and neither begins nor ends with a separator. For raw
string fields with arbitrary text this fails (see the counterexample). -/
theorem c1_separator_invariant (fmt : List LogFormat) (c : Container)
    (h : ∀ f ∈ fmt, CleanToken (renderItem c f)) :
    composeLine fmt c = joinSp (nonemptyTokens (tokensOf c fmt)) ∧
    noTwoSpaces (composeLine fmt c).data = true ∧
    (composeLine fmt c).data.head? ≠ some ' ' ∧
    (composeLine fmt c).data.getLast? ≠ some ' ' := by
  have he := composeLine_eq_joinSp fmt c h
  have hcl : ∀ t ∈ nonemptyTokens (tokensOf c fmt), t ≠ "" ∧ CleanToken t := by
    intro t ht
    rw [nonemptyTokens, List.mem_filter] at ht
    refine ⟨by rw [strNe_empty_iff]; simpa [List.isEmpty_iff] using ht.2, ?_⟩
    have hm := ht.1
    rw [tokensOf_eq_map] at hm
    obtain ⟨f, hf, rfl⟩ := List.mem_map.1 hm
    exact h f hf
  have hj := joinSp_clean _ hcl
  rw [he]
  exact ⟨rfl, hj.2.2, hj.1, hj.2.1⟩

/-- C1 counterexample: with the specification `[PRE_TEXT]` and a record
whose PreText is the arbitrary raw text " x", the composed line begins
with a separator, refuting the claim for arbitrary raw string fields. -/
theorem c1_counterexample :
    (composeLine [LogFormat.FORMAT_PRE_TEXT] spacePrefixedContainer).data.head? =
      some ' ' := by
  decide

theorem c1_witness :
    (∀ f ∈ [LogFormat.FORMAT_STATUS, LogFormat.FORMAT_INFO],
      CleanToken (renderItem sampleContainer2 f)) ∧
    composeLine [LogFormat.FORMAT_STATUS, LogFormat.FORMAT_INFO] sampleContainer2 =
      "INFO hello" := by
  refine ⟨by decide, ?_⟩
  rw [(c1_separator_invariant [LogFormat.FORMAT_STATUS, LogFormat.FORMAT_INFO]
    sampleContainer2 (by decide)).1]
  decide

/-- C2. Rendering is order-preserving and per-occurrence: holding the
record fixed, the token list is computed item-by-item (one token per
occurrence, so duplicates render once per occurrence, and concatenation of
specifications concatenates token lists), a permutation of the Format
Specification permutes the token list identically, and the composed line is
the in-specification-order join of the non-empty tokens (for separator-clean
tokens). -/
theorem c2_order_preserving (c : Container) (l1 l2 : List LogFormat) :
    (List.Perm l1 l2 → List.Perm (tokensOf c l1) (tokensOf c l2)) ∧
    tokensOf c (l1 ++ l2) = tokensOf c l1 ++ tokensOf c l2 ∧
    (∀ f, tokensOf c [f] = [renderItem c f]) ∧
    ((∀ f ∈ l1, CleanToken (renderItem c f)) →
      composeLine l1 c = joinSp (nonemptyTokens (tokensOf c l1))) := by
  refine ⟨?_, ?_, fun f => rfl, composeLine_eq_joinSp l1 c⟩
  · intro hp
    rw [tokensOf_eq_map, tokensOf_eq_map]
    exact hp.map (renderItem c)
  · rw [tokensOf_eq_map, tokensOf_eq_map, tokensOf_eq_map, List.map_append]

theorem c2_witness :
    List.Perm
      (tokensOf sampleContainer2 [LogFormat.FORMAT_INFO, LogFormat.FORMAT_STATUS])
      (tokensOf sampleContainer2 [LogFormat.FORMAT_STATUS, LogFormat.FORMAT_INFO]) ∧
    composeLine [LogFormat.FORMAT_INFO, LogFormat.FORMAT_STATUS] sampleContainer2 =
      "hello INFO" := by
  refine ⟨(c2_order_preserving sampleContainer2 _ _).1 (by decide), ?_⟩
  rw [(c2_order_preserving sampleContainer2
    [LogFormat.FORMAT_INFO, LogFormat.FORMAT_STATUS] []).2.2.2 (by decide)]
  decide

theorem pad2_len : ∀ m, m < 100 → (pad2 m).length = 2 := by decide

theorem point01_eq : point01 = ⟨5764607523034235, 576460752303423488⟩ := by decide

theorem point01_den_pos : 0 < point01.den := by rw [point01_eq]; decide

theorem fmt2_point01 : fmt2 point01 = "0.01" := by decide

theorem pow2_den_pos (e : Int) : 0 < (pow2 e).den := by
  unfold pow2
  split
  · exact one_pos
  · exact pow_pos (by norm_num) _

theorem posDouble_den_pos (x : Q) : 0 < (posDouble x).den := by
  show 0 < 1 * (pow2 (findExp x - 52)).den
  rw [one_mul]
  exact pow2_den_pos _

theorem float64Near_den_pos (x : Q) : 0 < (float64Near x).den := by
  unfold float64Near
  split
  · exact one_pos
  · split
    · exact posDouble_den_pos _
    · exact posDouble_den_pos _

theorem rne_ge_one (w : Q) (hd : 0 < w.den) (h : w.den < 2 * w.num) :
    1 ≤ rne w := by
  have key : w.den * (w.num.fdiv w.den) + w.num.fmod w.den = w.num :=
    Int.fdiv_add_fmod w.num w.den
  have h1 : 0 ≤ w.num.fmod w.den := Int.fmod_nonneg' w.num hd
  have h2 : w.num.fmod w.den < w.den := Int.fmod_lt_of_pos w.num hd
  have sub : w.num - w.num.fdiv w.den * w.den = w.num.fmod w.den := by
    have hc : w.num.fdiv w.den * w.den = w.den * (w.num.fdiv w.den) :=
      mul_comm _ _
    linarith [key]
  have hqpos : 2 * w.num.fmod w.den ≤ w.den → 1 ≤ w.num.fdiv w.den := by
    intro hr
    by_contra hq
    push_neg at hq
    have hq0 : w.num.fdiv w.den ≤ 0 := by omega
    have hmul : w.den * (w.num.fdiv w.den) ≤ 0 :=
      mul_nonpos_of_nonneg_of_nonpos hd.le hq0
    linarith
  show 1 ≤ (if 2 * (w.num - w.num.fdiv w.den * w.den) < w.den then
      w.num.fdiv w.den
    else if w.den < 2 * (w.num - w.num.fdiv w.den * w.den) then
      w.num.fdiv w.den + 1
    else if w.num.fdiv w.den % 2 = 0 then w.num.fdiv w.den
    else w.num.fdiv w.den + 1)
  rw [sub]
  by_cases hc1 : 2 * w.num.fmod w.den < w.den
  · rw [if_pos hc1]
    exact hqpos hc1.le
  · rw [if_neg hc1]
    by_cases hc2 : w.den < 2 * w.num.fmod w.den
    · rw [if_pos hc2]
      have hq0 : 0 ≤ w.num.fdiv w.den := Int.fdiv_nonneg (by linarith) hd.le
      omega
    · rw [if_neg hc2]
      have hq1 : 1 ≤ w.num.fdiv w.den := hqpos (by omega)
      by_cases hpar : w.num.fdiv w.den % 2 = 0
      · rw [if_pos hpar]
        exact hq1
      · rw [if_neg hpar]
        omega

/-- C3. For every duration, `getProcessingTime` returns a non-empty token
of the form `[X.XX ms]` — the clamped millisecond value printed with
exactly two decimal digits, with a non-zero printed value — and any
duration whose computed `float64` millisecond value lies below the 0.01
threshold (in particular the zero duration and all negative durations)
renders exactly `[0.01 ms]`. -/
theorem c3_processing_time (d : Int) :
    (∃ n : Nat, 1 ≤ n ∧ (pad2 (n % 100)).length = 2 ∧
      getProcessingTime d =
        "[" ++ (Nat.repr (n / 100) ++ "." ++ pad2 (n % 100)) ++ " ms]") ∧
    (qlt (processingTimeMs d) point01 → getProcessingTime d = "[0.01 ms]") := by
  have hms_den : 0 < (processingTimeMs d).den := float64Near_den_pos _
  constructor
  · refine ⟨(rne (qmul (if qlt (processingTimeMs d) point01 then point01
        else processingTimeMs d) ⟨100, 1⟩)).toNat, ?_, ?_, rfl⟩
    · set v := if qlt (processingTimeMs d) point01 then point01
        else processingTimeMs d with hv
      have hden : 0 < v.den := by
        rw [hv]
        split
        · exact point01_den_pos
        · exact hms_den
      have hge : qle point01 v := by
        rw [hv]
        split
        · unfold qle
          exact le_refl _
        · rename_i hlt
          exact Int.not_lt.1 hlt
      have hge2 : (5764607523034235 : Int) * v.den ≤
          v.num * 576460752303423488 := by
        rw [point01_eq] at hge
        exact hge
      have hkey : v.den < 2 * (v.num * 100) := by linarith
      have h1 : (1 : Int) ≤ rne (qmul v ⟨100, 1⟩) := by
        apply rne_ge_one
        · show 0 < v.den * 1
          simpa using hden
        · show v.den * 1 < 2 * (v.num * 100)
          simpa using hkey
      omega
    · exact pad2_len _ (Nat.mod_lt _ (by omega))
  · intro hlt
    show "[" ++ fmt2 (if qlt (processingTimeMs d) point01 then point01
      else processingTimeMs d) ++ " ms]" = "[0.01 ms]"
    rw [if_pos hlt, fmt2_point01]
    rfl

theorem c3_witness :
    qlt (processingTimeMs 0) point01 ∧ getProcessingTime 0 = "[0.01 ms]" :=
  ⟨by decide, (c3_processing_time 0).2 (by decide)⟩
